import Mathlib

/-!
Verification of `truncate_canvas_manager.py`.

The script reads a hard-coded file in text mode (UTF-8), keeps its first
3789 lines, appends the closing snippet `"\n}() );\n"` as one further
sequence element, writes the result to a temporary path, atomically renames
it over the original, and prints the length of the written sequence.

File contents are modelled as `List Char` (the decoded character stream of
the file).  Python opens the file in text mode with `newline=None`
(universal newlines): on reading, each `"\r\n"` and each lone `"\r"` is
translated to `"\n"` before `readlines` splits the stream; this translation
is modelled explicitly by `translate`.
-/

set_option autoImplicit false

namespace Truncate

/-- Hard-coded source path (line 3 of the script). -/
def file_path : String :=
  "f:\\Docker\\mediawiki\\extensions\\Layers\\resources\\ext.layers.editor\\CanvasManager.js"

/-- Temporary path: the source path with the suffix `".tmp"` (line 4). -/
def temp_path : String := file_path ++ ".tmp"

/-- Retain-count: the script keeps `lines[:3789]` (line 15). -/
def retainCount : Nat := 3789

/-- Second line of the closing snippet: `"}() );\n"` (`\x7d` is `}`). -/
def closingTail : List Char := ['\x7d', '(', ')', ' ', ')', ';', '\n']

/-- The closing snippet `"\n}() );\n"` appended as one element (line 18). -/
def closing : List Char := '\n' :: closingTail

/-- Universal-newline translation, one pass over the stream.  The flag
records that the previous character was `'\r'`, so that a directly
following `'\n'` is dropped (the pair `"\r\n"` became one `'\n'`). -/
def translateAux : List Char → Bool → List Char
  | [], _ => []
  | c :: rest, skip =>
    if c = '\n' then
      if skip then translateAux rest false else '\n' :: translateAux rest false
    else if c = '\r' then '\n' :: translateAux rest true
    else c :: translateAux rest false

/-- Universal-newline translation performed by `open(path, 'r')` with the
default `newline=None`: `"\r\n"` and lone `"\r"` become `"\n"`. -/
def translate (s : List Char) : List Char := translateAux s false

/-- Split a (translated) character stream into lines, each line keeping its
trailing `'\n'`; a final unterminated chunk is a line of its own.  This is
how `readlines` divides the translated stream. -/
def splitLines : List Char → List (List Char)
  | [] => []
  | c :: rest =>
    if c = '\n' then ['\n'] :: splitLines rest
    else
      match splitLines rest with
      | [] => [[c]]
      | l :: ls => (c :: l) :: ls

/-- Model of `lines = f.readlines()` (lines 6-7 of the script): universal
newline translation followed by the keepends line split. -/
def readlines (s : List Char) : List (List Char) := splitLines (translate s)

/-- Model of `truncated_lines = lines[:3789]` followed by
`truncated_lines.append("\n}() );\n")` (lines 15 and 18). -/
def truncated_lines (lines : List (List Char)) : List (List Char) :=
  lines.take retainCount ++ [closing]

/-- Character content written by `f.writelines(truncated_lines)` (line 21):
the concatenation of the sequence elements. -/
def output (content : List Char) : List Char :=
  (truncated_lines (readlines content)).flatten

/-- The count printed on line 26: `len(truncated_lines)`. -/
def printedCount (content : List Char) : Nat :=
  (truncated_lines (readlines content)).length

/-- The console line printed on line 26 of the script. -/
def message (n : Nat) : String :=
  "Truncated " ++ file_path ++ " to " ++ toString n ++ " lines."

/-- A line produced by the splitter: nonempty, with `'\n'` occurring at
most as its final character. -/
def ProperLine (l : List Char) : Prop :=
  l ≠ [] ∧ ∀ c ∈ l.dropLast, c ≠ '\n'

/-- A line that ends in a line terminator. -/
def Terminated (l : List Char) : Prop := l.getLast? = some '\n'

instance (l : List Char) : Decidable (ProperLine l) := by
  unfold ProperLine; infer_instance

instance (l : List Char) : Decidable (Terminated l) := by
  unfold Terminated; infer_instance

/-- The filesystem as the script can observe it: the contents (if any) at
`file_path` and at `temp_path`. -/
structure FS where
  orig : Option (List Char)
  tmp : Option (List Char)
deriving DecidableEq

/-- Denotational model of one whole run: opening a missing source fails
before any write (lines 6-7); otherwise the final filesystem has the
truncated content at the source path, nothing at the temporary path, and
the printed count is `len(truncated_lines)`. -/
def run (fs : FS) : Except FS (FS × Nat) :=
  match fs.orig with
  | none => Except.error fs
  | some c => Except.ok (⟨some (output c), none⟩, printedCount c)

/-- Program counter of the small-step model: before the read, after the
read, after the temporary file is written, and after the rename. -/
inductive PC where
  | start
  | readDone
  | writeDone
  | renamed
deriving DecidableEq

/-- Small-step machine state: the filesystem, the buffered content read
from the source (line 7), and the program counter. -/
structure Machine where
  fs : FS
  buf : Option (List Char)
  pc : PC

/-- Small-step semantics of the script.  Reading requires the source to
exist and buffers its content; writing touches only the temporary slot;
the rename moves the temporary content over the source in one step. -/
inductive Step : Machine → Machine → Prop where
  | read (fs : FS) (c : List Char) (h : fs.orig = some c) :
      Step ⟨fs, none, PC.start⟩ ⟨fs, some c, PC.readDone⟩
  | write (fs : FS) (c : List Char) :
      Step ⟨fs, some c, PC.readDone⟩
        ⟨⟨fs.orig, some (output c)⟩, some c, PC.writeDone⟩
  | rename (fs : FS) (c t : List Char) (h : fs.tmp = some t) :
      Step ⟨fs, some c, PC.writeDone⟩ ⟨⟨some t, none⟩, some c, PC.renamed⟩

/-- Invariant of the small-step machine for a run that started with
content `c` at the source path. -/
def Inv (c : List Char) (m : Machine) : Prop :=
  match m.pc with
  | PC.start => m.fs.orig = some c
  | PC.readDone => m.fs.orig = some c ∧ m.buf = some c
  | PC.writeDone =>
      m.fs.orig = some c ∧ m.buf = some c ∧ m.fs.tmp = some (output c)
  | PC.renamed => m.fs.orig = some (output c) ∧ m.fs.tmp = none

/-- Sample line used to build concrete inputs. -/
def lineA : List Char := ['a', '\n']

/-- Concrete input consisting of `n` copies of the line `"a\n"`. -/
def bigInput (n : Nat) : List Char := (List.replicate n lineA).flatten

/-- Sample CRLF-terminated line `"a\r\n"`. -/
def lineCR : List Char := ['a', '\r', '\n']

/-- Concrete input consisting of `n` copies of the CRLF line `"a\r\n"`. -/
def bigInputCR (n : Nat) : List Char := (List.replicate n lineCR).flatten

theorem splitLines_nil : splitLines [] = [] := rfl

theorem splitLines_cons_nl (s : List Char) :
    splitLines ('\n' :: s) = ['\n'] :: splitLines s := rfl

theorem splitLines_cons_ne_nil {c : Char} {s : List Char} (h : c ≠ '\n')
    (h2 : splitLines s = []) : splitLines (c :: s) = [[c]] := by
  simp only [splitLines]
  rw [if_neg h, h2]

theorem splitLines_cons_ne_cons {c : Char} {s l : List Char}
    {ls : List (List Char)} (h : c ≠ '\n') (h2 : splitLines s = l :: ls) :
    splitLines (c :: s) = (c :: l) :: ls := by
  simp only [splitLines]
  rw [if_neg h, h2]

theorem translateAux_cons_other {c : Char} {b : Bool} (s : List Char)
    (h1 : c ≠ '\n') (h2 : c ≠ '\r') :
    translateAux (c :: s) b = c :: translateAux s false := by
  simp [translateAux, h1, h2]

theorem not_cr_mem_translateAux : ∀ (s : List Char) (b : Bool),
    '\r' ∉ translateAux s b := by
  intro s
  induction s with
  | nil => intro b; simp [translateAux]
  | cons c rest ih =>
    intro b
    by_cases hn : c = '\n'
    · subst hn
      cases b <;> simp [translateAux] <;> exact ih false
    · by_cases hr : c = '\r'
      · subst hr
        simp [translateAux]
        exact ih true
      · rw [translateAux_cons_other rest hn hr]
        intro hmem
        rcases List.mem_cons.mp hmem with h | h
        · exact hr h.symm
        · exact absurd h (ih false)

theorem not_cr_mem_translate (s : List Char) : '\r' ∉ translate s :=
  not_cr_mem_translateAux s false

theorem translateAux_eq_self : ∀ (s : List Char), '\r' ∉ s →
    translateAux s false = s := by
  intro s
  induction s with
  | nil => intro _; rfl
  | cons c rest ih =>
    intro h
    have hc : c ≠ '\r' := fun hc => h (hc ▸ List.mem_cons_self c rest)
    have hrest : '\r' ∉ rest := fun hm => h (List.mem_cons_of_mem c hm)
    by_cases hn : c = '\n'
    · subst hn
      simp [translateAux, ih hrest]
    · rw [translateAux_cons_other rest hn hc, ih hrest]

theorem translate_eq_self {s : List Char} (h : '\r' ∉ s) : translate s = s :=
  translateAux_eq_self s h

theorem flatten_splitLines : ∀ s : List Char, (splitLines s).flatten = s := by
  intro s
  induction s with
  | nil => rfl
  | cons c rest ih =>
    by_cases hn : c = '\n'
    · subst hn
      rw [splitLines_cons_nl, List.flatten_cons, ih]
      rfl
    · cases h2 : splitLines rest with
      | nil =>
        have hrest : rest = [] := by rw [← ih, h2]; rfl
        rw [splitLines_cons_ne_nil hn h2, hrest]
        rfl
      | cons l ls =>
        rw [splitLines_cons_ne_cons hn h2, List.flatten_cons]
        have hres : (l :: ls).flatten = rest := by rw [← h2, ih]
        rw [List.flatten_cons] at hres
        rw [List.cons_append, hres]

theorem terminated_cons {c : Char} {l : List Char} (h : Terminated l) :
    Terminated (c :: l) := by
  unfold Terminated at *
  cases l with
  | nil => simp at h
  | cons d l' => rw [List.getLast?_cons_cons]; exact h

theorem properLine_of_mem_splitLines : ∀ {s l : List Char},
    l ∈ splitLines s → ProperLine l := by
  intro s
  induction s with
  | nil => intro l h; simp [splitLines_nil] at h
  | cons c rest ih =>
    intro l h
    by_cases hn : c = '\n'
    · subst hn
      rw [splitLines_cons_nl] at h
      rcases List.mem_cons.mp h with h | h
      · subst h; exact ⟨by simp, by simp⟩
      · exact ih h
    · cases h2 : splitLines rest with
      | nil =>
        rw [splitLines_cons_ne_nil hn h2] at h
        rcases List.mem_cons.mp h with h | h
        · subst h; exact ⟨by simp, by simp⟩
        · simp at h
      | cons l0 ls =>
        rw [splitLines_cons_ne_cons hn h2] at h
        rcases List.mem_cons.mp h with h | h
        · subst h
          have hp0 : ProperLine l0 := ih (by rw [h2]; exact List.mem_cons_self l0 ls)
          refine ⟨by simp, ?_⟩
          intro a ha
          rcases List.exists_cons_of_ne_nil hp0.1 with ⟨d, l', hdl⟩
          subst hdl
          have hdrop : (c :: d :: l').dropLast = c :: (d :: l').dropLast := rfl
          rw [hdrop] at ha
          rcases List.mem_cons.mp ha with ha | ha
          · subst ha; exact hn
          · exact hp0.2 a ha
        · exact ih (by rw [h2]; exact List.mem_cons_of_mem l0 h)

theorem terminated_of_mem_dropLast : ∀ {s l : List Char},
    l ∈ (splitLines s).dropLast → Terminated l := by
  intro s
  induction s with
  | nil => intro l h; simp [splitLines_nil] at h
  | cons c rest ih =>
    intro l h
    by_cases hn : c = '\n'
    · subst hn
      rw [splitLines_cons_nl] at h
      cases hL : splitLines rest with
      | nil => rw [hL] at h; simp at h
      | cons x xs =>
        rw [hL, List.dropLast_cons₂] at h
        rcases List.mem_cons.mp h with h | h
        · subst h; rfl
        · exact ih (by rw [hL]; exact h)
    · cases h2 : splitLines rest with
      | nil =>
        rw [splitLines_cons_ne_nil hn h2] at h
        simp at h
      | cons l0 ls =>
        rw [splitLines_cons_ne_cons hn h2] at h
        cases hls : ls with
        | nil => rw [hls] at h; simp at h
        | cons y ys =>
          rw [hls, List.dropLast_cons₂] at h
          rcases List.mem_cons.mp h with h | h
          · subst h
            have ht0 : Terminated l0 := by
              apply ih
              rw [h2, hls, List.dropLast_cons₂]
              exact List.mem_cons_self l0 _
            exact terminated_cons ht0
          · apply ih
            rw [h2, hls, List.dropLast_cons₂]
            exact List.mem_cons_of_mem l0 h

theorem splitLines_line_append : ∀ {l : List Char}, ProperLine l →
    Terminated l → ∀ s, splitLines (l ++ s) = l :: splitLines s := by
  intro l
  induction l with
  | nil => intro hp; exact absurd rfl hp.1
  | cons c t ih =>
    intro hp ht s
    cases t with
    | nil =>
      have hc : c = '\n' := by
        unfold Terminated at ht
        simpa using ht
      subst hc
      exact splitLines_cons_nl s
    | cons d t' =>
      have hmem : c ∈ (c :: d :: t').dropLast := by
        rw [List.dropLast_cons₂]
        exact List.mem_cons_self c _
      have hc : c ≠ '\n' := hp.2 c hmem
      have hp' : ProperLine (d :: t') := by
        refine ⟨by simp, ?_⟩
        intro a ha
        apply hp.2 a
        rw [List.dropLast_cons₂]
        exact List.mem_cons_of_mem c ha
      have ht' : Terminated (d :: t') := by
        unfold Terminated at *
        rw [List.getLast?_cons_cons] at ht
        exact ht
      rw [List.cons_append]
      exact splitLines_cons_ne_cons hc (ih hp' ht' s)

theorem splitLines_flatten_append : ∀ (ls : List (List Char)) (s : List Char),
    (∀ l ∈ ls, ProperLine l ∧ Terminated l) →
    splitLines (ls.flatten ++ s) = ls ++ splitLines s := by
  intro ls
  induction ls with
  | nil => intro s _; simp
  | cons l ls ih =>
    intro s h
    have hl := h l (List.mem_cons_self l ls)
    rw [List.flatten_cons, List.append_assoc,
      splitLines_line_append hl.1 hl.2 (ls.flatten ++ s),
      ih s (fun x hx => h x (List.mem_cons_of_mem l hx))]
    rfl

theorem splitLines_properLine : ∀ {l : List Char}, ProperLine l →
    splitLines l = [l] := by
  intro l
  induction l with
  | nil => intro hp; exact absurd rfl hp.1
  | cons c t ih =>
    intro hp
    cases t with
    | nil =>
      by_cases hc : c = '\n'
      · subst hc; rfl
      · exact splitLines_cons_ne_nil hc rfl
    | cons d t' =>
      have hmem : c ∈ (c :: d :: t').dropLast := by
        rw [List.dropLast_cons₂]
        exact List.mem_cons_self c _
      have hc : c ≠ '\n' := hp.2 c hmem
      have hp' : ProperLine (d :: t') := by
        refine ⟨by simp, ?_⟩
        intro a ha
        apply hp.2 a
        rw [List.dropLast_cons₂]
        exact List.mem_cons_of_mem c ha
      exact splitLines_cons_ne_cons hc (ih hp')

theorem splitLines_cons_length_pos (c : Char) (s : List Char) :
    0 < (splitLines (c :: s)).length := by
  by_cases hn : c = '\n'
  · subst hn; rw [splitLines_cons_nl]; simp
  · cases h2 : splitLines s with
    | nil => rw [splitLines_cons_ne_nil hn h2]; simp
    | cons l ls => rw [splitLines_cons_ne_cons hn h2]; simp

theorem length_splitLines_append : ∀ (a b : List Char),
    (splitLines (a ++ b)).length ≤
      (splitLines a).length + (splitLines b).length := by
  intro a
  induction a with
  | nil => intro b; simp
  | cons c a' ih =>
    intro b
    by_cases hn : c = '\n'
    · subst hn
      rw [List.cons_append, splitLines_cons_nl, splitLines_cons_nl]
      simp only [List.length_cons]
      have := ih b
      omega
    · rw [List.cons_append]
      cases h2 : splitLines (a' ++ b) with
      | nil =>
        rw [splitLines_cons_ne_nil hn h2]
        have := splitLines_cons_length_pos c a'
        simp only [List.length_cons, List.length_nil]
        omega
      | cons l ls =>
        rw [splitLines_cons_ne_cons hn h2]
        have h3 := ih b
        rw [h2] at h3
        cases h4 : splitLines a' with
        | nil =>
          rw [splitLines_cons_ne_nil hn h4]
          rw [h4] at h3
          simp only [List.length_cons, List.length_nil] at *
          omega
        | cons l0 ls0 =>
          rw [splitLines_cons_ne_cons hn h4]
          rw [h4] at h3
          simp only [List.length_cons] at *
          omega

theorem length_splitLines_flatten_le : ∀ (ls : List (List Char)),
    (∀ l ∈ ls, ProperLine l) → (splitLines ls.flatten).length ≤ ls.length := by
  intro ls
  induction ls with
  | nil => intro _; simp [splitLines_nil]
  | cons l ls ih =>
    intro h
    rw [List.flatten_cons]
    calc (splitLines (l ++ ls.flatten)).length
        ≤ (splitLines l).length + (splitLines ls.flatten).length :=
          length_splitLines_append l ls.flatten
      _ ≤ 1 + ls.length := by
          rw [splitLines_properLine (h l (List.mem_cons_self l ls))]
          have := ih (fun x hx => h x (List.mem_cons_of_mem l hx))
          simp only [List.length_cons, List.length_nil]
          omega
      _ = (l :: ls).length := by simp [Nat.add_comm]

theorem output_eq (c : List Char) :
    output c = ((readlines c).take retainCount).flatten ++ closing := by
  unfold output truncated_lines
  rw [List.flatten_append]
  simp

theorem mem_of_mem_splitLines {s l : List Char} {a : Char}
    (hl : l ∈ splitLines s) (ha : a ∈ l) : a ∈ s := by
  rw [← flatten_splitLines s]
  exact List.mem_flatten.mpr ⟨l, hl, ha⟩

theorem output_no_cr (c : List Char) : '\r' ∉ output c := by
  rw [output_eq]
  intro h
  rcases List.mem_append.mp h with h | h
  · rcases List.mem_flatten.mp h with ⟨l, hl, ha⟩
    have hl' : l ∈ splitLines (translate c) := List.take_subset _ _ hl
    exact not_cr_mem_translate c (mem_of_mem_splitLines hl' ha)
  · simp [closing, closingTail] at h

theorem translate_output (c : List Char) : translate (output c) = output c :=
  translate_eq_self (output_no_cr c)

theorem splitLines_closing : splitLines closing = [['\n'], closingTail] := rfl

theorem readlines_output (c : List Char)
    (h : ∀ l ∈ (readlines c).take retainCount, Terminated l) :
    readlines (output c) =
      (readlines c).take retainCount ++ [['\n'], closingTail] := by
  show splitLines (translate (output c)) = _
  rw [translate_output, output_eq]
  rw [splitLines_flatten_append ((readlines c).take retainCount) closing
    (fun l hl =>
      ⟨properLine_of_mem_splitLines (List.take_subset _ _ hl), h l hl⟩)]
  rw [splitLines_closing]

theorem printedCount_eq (c : List Char) :
    printedCount c = min (readlines c).length retainCount + 1 := by
  unfold printedCount truncated_lines
  rw [List.length_append, List.length_take]
  simp [Nat.min_comm]

theorem readlines_bigInput (n : Nat) :
    readlines (bigInput n) = List.replicate n lineA := by
  show splitLines (translate (bigInput n)) = _
  have hncr : '\r' ∉ bigInput n := by
    intro h
    rcases List.mem_flatten.mp h with ⟨l, hl, ha⟩
    rw [(List.mem_replicate.mp hl).2] at ha
    simp [lineA] at ha
  rw [translate_eq_self hncr]
  have hall : ∀ l ∈ List.replicate n lineA, ProperLine l ∧ Terminated l := by
    intro l hl
    rw [(List.mem_replicate.mp hl).2]
    exact ⟨by decide, by decide⟩
  have h2 := splitLines_flatten_append (List.replicate n lineA) [] hall
  rw [List.append_nil] at h2
  rw [splitLines_nil, List.append_nil] at h2
  exact h2

theorem splitLines_flatten_replicate (n : Nat) (l : List Char)
    (hp : ProperLine l) (ht : Terminated l) :
    splitLines ((List.replicate n l).flatten) = List.replicate n l := by
  have hall : ∀ x ∈ List.replicate n l, ProperLine x ∧ Terminated x := by
    intro x hx
    rw [(List.mem_replicate.mp hx).2]
    exact ⟨hp, ht⟩
  have h2 := splitLines_flatten_append (List.replicate n l) [] hall
  rw [List.append_nil, splitLines_nil, List.append_nil] at h2
  exact h2

theorem length_flatten_replicate (n : Nat) (l : List Char) :
    ((List.replicate n l).flatten).length = n * l.length := by
  induction n with
  | zero => simp
  | succ k ih =>
    rw [List.replicate_succ, List.flatten_cons, List.length_append, ih]
    ring

theorem translate_bigInputCR : ∀ n : Nat,
    translate (bigInputCR n) = bigInput n := by
  intro n
  induction n with
  | zero => rfl
  | succ k ih =>
    show translateAux ((List.replicate (k + 1) lineCR).flatten) false = _
    rw [List.replicate_succ, List.flatten_cons]
    have hstep : ∀ s : List Char,
        translateAux (lineCR ++ s) false = 'a' :: '\n' :: translateAux s false :=
      fun s => rfl
    rw [hstep]
    show 'a' :: '\n' :: translate (bigInputCR k) = bigInput (k + 1)
    rw [ih]
    show _ = (List.replicate (k + 1) lineA).flatten
    rw [List.replicate_succ, List.flatten_cons]
    rfl

theorem readlines_bigInputCR (n : Nat) :
    readlines (bigInputCR n) = List.replicate n lineA := by
  show splitLines (translate (bigInputCR n)) = _
  rw [translate_bigInputCR n]
  exact splitLines_flatten_replicate n lineA (by decide) (by decide)

theorem terminated_take_of_lt {c : List Char}
    (h : retainCount < (readlines c).length) :
    ∀ l ∈ (readlines c).take retainCount, Terminated l := by
  intro l hl
  have heq : (readlines c).take retainCount
      = ((readlines c).dropLast).take retainCount := by
    rw [List.dropLast_eq_take, List.take_take]
    rw [Nat.min_eq_left (by omega)]
  rw [heq] at hl
  exact terminated_of_mem_dropLast (List.take_subset _ _ hl)

/-- C1 counterexample: a 3790-line source whose lines all end in `"\r\n"`
has more than 3789 lines, yet the output's first 3789 lines are not
byte-identical to the original's first 3789 lines: their concatenation is
`"a\n"` repeated 3789 times, while the original's first 3789 lines are
`"a\r\n"` repeated 3789 times, that is `bigInputCR 3789` byte for byte. -/
theorem c1_byte_identity_cex :
    3789 < (readlines (bigInputCR 3790)).length ∧
    ¬ ((readlines (output (bigInputCR 3790))).take 3789).flatten
        = bigInputCR 3789 := by
  have hrl := readlines_bigInputCR 3790
  refine ⟨by rw [hrl, List.length_replicate]; decide, ?_⟩
  have hterm : ∀ l ∈ (readlines (bigInputCR 3790)).take retainCount,
      Terminated l := by
    rw [hrl]
    intro l hl
    rw [(List.mem_replicate.mp (List.take_subset _ _ hl)).2]
    decide
  have hro := readlines_output (bigInputCR 3790) hterm
  rw [hrl] at hro
  have htk : (List.replicate 3790 lineA).take retainCount
      = List.replicate 3789 lineA := by
    rw [List.take_replicate]
    congr 1
  rw [htk] at hro
  rw [hro]
  have htk2 : (List.replicate 3789 lineA ++ [['\n'], closingTail]).take 3789
      = List.replicate 3789 lineA := by
    have h0 := List.take_left (List.replicate 3789 lineA) [['\n'], closingTail]
    rw [List.length_replicate] at h0
    exact h0
  rw [htk2]
  intro heq
  have hlen := congrArg List.length heq
  rw [length_flatten_replicate 3789 lineA] at hlen
  have hlenCR : (bigInputCR 3789).length = 3789 * lineCR.length :=
    length_flatten_replicate 3789 lineCR
  rw [hlenCR] at hlen
  have h2 : lineA.length = 2 := rfl
  have h3 : lineCR.length = 3 := rfl
  rw [h2, h3] at hlen
  omega

/-- C1 amended: for a source file with more than 3789 lines, the output has
exactly 3791 lines; its first 3789 lines are the first 3789 lines of the
universal-newline-decoded reading of the original, and they are
byte-identical to the original's first 3789 lines whenever the original
contains no carriage return; line 3790 is the empty line and line 3791 is
the closing line `"}() );\n"` (so in particular in the 5000-line
scenario). -/
theorem c1_over_threshold_amended (c : List Char)
    (h : 3789 < (readlines c).length) :
    (readlines (output c)).length = 3791 ∧
    (readlines (output c)).take 3789 = (readlines c).take 3789 ∧
    ('\r' ∉ c →
      (readlines (output c)).take 3789 = (splitLines c).take 3789) ∧
    (readlines (output c))[3789]? = some ['\n'] ∧
    (readlines (output c))[3790]? = some closingTail := by
  have h' : retainCount < (readlines c).length := h
  have hro := readlines_output c (terminated_take_of_lt h')
  have hlen : ((readlines c).take retainCount).length = retainCount := by
    rw [List.length_take]
    exact Nat.min_eq_left (Nat.le_of_lt h')
  have htake : (readlines (output c)).take 3789 = (readlines c).take 3789 := by
    rw [hro]
    have h0 := List.take_left ((readlines c).take retainCount)
      [['\n'], closingTail]
    rw [hlen] at h0
    exact h0
  refine ⟨?_, htake, ?_, ?_, ?_⟩
  · rw [hro, List.length_append, hlen]
    rfl
  · intro hcr
    rw [htake]
    show (splitLines (translate c)).take 3789 = (splitLines c).take 3789
    rw [translate_eq_self hcr]
  · rw [hro, List.getElem?_append_right (by rw [hlen]; exact Nat.le_refl _)]
    rw [hlen]
    rfl
  · rw [hro, List.getElem?_append_right (by rw [hlen]; decide)]
    rw [hlen]
    rfl

/-- Witness for the amended C1: the 5000-line scenario from the spec, five
thousand copies of the carriage-return-free line `"a\n"`. -/
theorem c1_over_threshold_amended_witness :
    3789 < (readlines (bigInput 5000)).length ∧
    ((readlines (output (bigInput 5000))).length = 3791 ∧
     (readlines (output (bigInput 5000))).take 3789
        = (readlines (bigInput 5000)).take 3789 ∧
     ('\r' ∉ bigInput 5000 →
       (readlines (output (bigInput 5000))).take 3789
          = (splitLines (bigInput 5000)).take 3789) ∧
     (readlines (output (bigInput 5000)))[3789]? = some ['\n'] ∧
     (readlines (output (bigInput 5000)))[3790]? = some closingTail) := by
  have hlen : 3789 < (readlines (bigInput 5000)).length := by
    rw [readlines_bigInput, List.length_replicate]
    decide
  exact ⟨hlen, c1_over_threshold_amended (bigInput 5000) hlen⟩

/-- C2 counterexample: the one-line source `"a\r"` has fewer than 3789
lines, yet the output is not the entire original content plus the closing
lines: the lone `"\r"` is decoded as `"\n"`, so the output is
`"a\n" ++ closing`, not `"a\r" ++ closing`. -/
theorem c2_full_content_cex :
    (readlines ['a', '\r']).length ≤ 3789 ∧
    ¬ output ['a', '\r'] = ['a', '\r'] ++ closing := by decide

/-- C2 amended: for a source file with 3789 or fewer lines the output is
the entire universal-newline-decoded content of the original with the
closing snippet appended after it; it equals the entire original content
plus the closing snippet whenever the original contains no carriage
return. -/
theorem c2_below_threshold_amended (c : List Char)
    (h : (readlines c).length ≤ 3789) :
    output c = translate c ++ closing ∧
      ('\r' ∉ c → output c = c ++ closing) := by
  have htake : (readlines c).take retainCount = readlines c :=
    List.take_of_length_le h
  have hmain : output c = translate c ++ closing := by
    rw [output_eq, htake]
    show (splitLines (translate c)).flatten ++ closing = _
    rw [flatten_splitLines]
  exact ⟨hmain, fun hcr => by rw [hmain, translate_eq_self hcr]⟩

/-- Witness for the amended C2 at the two-character file `"a\n"`. -/
theorem c2_below_threshold_amended_witness :
    (readlines lineA).length ≤ 3789 ∧
    (output lineA = translate lineA ++ closing ∧
      ('\r' ∉ lineA → output lineA = lineA ++ closing)) :=
  ⟨by decide, c2_below_threshold_amended lineA (by decide)⟩

/-- C3 counterexample: for the source file `"a\n"` the script prints 2 but
the written file has 3 lines, so the printed count is not the final line
count of the truncated file. -/
theorem c3_printed_count_cex :
    ¬ printedCount lineA = (readlines (output lineA)).length := by decide

/-- C3 amended: the printed count is `len(truncated_lines)`, which counts
the two-line closing snippet as one element; whenever every line of the
source is newline-terminated (including the empty file) the written file
has printed-count + 1 lines. -/
theorem c3_printed_count_amended (c : List Char)
    (h : ∀ l ∈ readlines c, Terminated l) :
    (readlines (output c)).length = printedCount c + 1 := by
  have hterm : ∀ l ∈ (readlines c).take retainCount, Terminated l :=
    fun l hl => h l (List.take_subset _ _ hl)
  rw [readlines_output c hterm, List.length_append, List.length_take,
    printedCount_eq]
  simp only [List.length_cons, List.length_nil]
  omega

/-- Witness for the amended C3 at the fully terminated file `"a\n"`. -/
theorem c3_printed_count_amended_witness :
    (∀ l ∈ readlines lineA, Terminated l) ∧
    (readlines (output lineA)).length = printedCount lineA + 1 :=
  ⟨by decide, c3_printed_count_amended lineA (by decide)⟩

/-- C4 counterexample: the file `"a\r\n"` is read as the single line
`"a\n"`; the original `"\r\n"` terminator is not retained, so the
concatenation of the lines is not the original content byte for byte. -/
theorem c4_terminator_cex :
    ¬ (readlines ['a', '\r', '\n']).flatten = ['a', '\r', '\n'] := by decide

/-- C4 amended: reading translates universal newlines, so each `"\r\n"`
and each lone `"\r"` is returned as `"\n"`; for an input containing no
carriage return the lines keep their terminators exactly and their
concatenation reproduces the content byte for byte. -/
theorem c4_terminator_amended (c : List Char) (h : '\r' ∉ c) :
    (readlines c).flatten = c := by
  show (splitLines (translate c)).flatten = c
  rw [translate_eq_self h, flatten_splitLines]

/-- Witness for the amended C4 at the carriage-return-free file `"a\nb"`. -/
theorem c4_terminator_amended_witness :
    '\r' ∉ ['a', '\n', 'b'] ∧
    (readlines ['a', '\n', 'b']).flatten = ['a', '\n', 'b'] :=
  ⟨by decide, c4_terminator_amended ['a', '\n', 'b'] (by decide)⟩

theorem inv_step {c : List Char} {m m' : Machine} (hm : Inv c m)
    (hs : Step m m') : Inv c m' := by
  cases hs with
  | read fs c' h =>
    have h1 : fs.orig = some c := hm
    rw [h] at h1
    injection h1 with h1
    subst h1
    exact ⟨h, rfl⟩
  | write fs c' =>
    obtain ⟨h1, h2⟩ := hm
    injection h2 with h2
    subst h2
    exact ⟨h1, rfl, rfl⟩
  | rename fs c' t h =>
    obtain ⟨h1, h2, h3⟩ := hm
    injection h2 with h2
    subst h2
    rw [h] at h3
    injection h3 with h3
    subst h3
    exact ⟨rfl, rfl⟩

/-- C5: in every state reachable during a run started on content `c`, the
content at the source path is the original `c` until the rename step has
happened and the final truncated content after it; the source path is never
observable in a partially written state. -/
theorem c5_atomic_replace (c : List Char) (t0 : Option (List Char))
    (m : Machine)
    (h : Relation.ReflTransGen Step ⟨⟨some c, t0⟩, none, PC.start⟩ m) :
    (m.pc ≠ PC.renamed → m.fs.orig = some c) ∧
    (m.pc = PC.renamed → m.fs.orig = some (output c)) := by
  have hinv : Inv c m := by
    induction h with
    | refl => exact rfl
    | tail hab hbc ih => exact inv_step ih hbc
  obtain ⟨fs, buf, pc⟩ := m
  cases pc with
  | start => exact ⟨fun _ => hinv, fun hpc => nomatch hpc⟩
  | readDone => exact ⟨fun _ => hinv.1, fun hpc => nomatch hpc⟩
  | writeDone => exact ⟨fun _ => hinv.1, fun hpc => nomatch hpc⟩
  | renamed => exact ⟨fun hne => absurd rfl hne, fun _ => hinv.1⟩

/-- Witness for C5: the complete read-write-rename run on the one-line file
`"a\n"`, ending in the renamed state with the truncated content in place. -/
theorem c5_atomic_replace_witness :
    Relation.ReflTransGen Step ⟨⟨some lineA, none⟩, none, PC.start⟩
      ⟨⟨some (output lineA), none⟩, some lineA, PC.renamed⟩ ∧
    (((⟨⟨some (output lineA), none⟩, some lineA, PC.renamed⟩ : Machine).pc
        ≠ PC.renamed →
      (⟨⟨some (output lineA), none⟩, some lineA,
        PC.renamed⟩ : Machine).fs.orig = some lineA) ∧
     ((⟨⟨some (output lineA), none⟩, some lineA, PC.renamed⟩ : Machine).pc
        = PC.renamed →
      (⟨⟨some (output lineA), none⟩, some lineA,
        PC.renamed⟩ : Machine).fs.orig = some (output lineA))) := by
  have hchain : Relation.ReflTransGen Step
      ⟨⟨some lineA, none⟩, none, PC.start⟩
      ⟨⟨some (output lineA), none⟩, some lineA, PC.renamed⟩ := by
    refine Relation.ReflTransGen.head
      (Step.read ⟨some lineA, none⟩ lineA rfl) ?_
    refine Relation.ReflTransGen.head
      (Step.write ⟨some lineA, none⟩ lineA) ?_
    exact Relation.ReflTransGen.single
      (Step.rename ⟨some lineA, some (output lineA)⟩ lineA (output lineA) rfl)
  exact ⟨hchain, c5_atomic_replace lineA none _ hchain⟩

/-- C6: when no file exists at the source path the run fails with the
filesystem unchanged, and not even the first step of the machine can fire:
nothing is written at the source or the temporary path. -/
theorem c6_missing_source (fs : FS) (h : fs.orig = none) :
    run fs = Except.error fs ∧ ∀ m, ¬ Step ⟨fs, none, PC.start⟩ m := by
  constructor
  · unfold run
    rw [h]
  · intro m hs
    cases hs with
    | read fs c hc =>
      rw [h] at hc
      exact Option.noConfusion hc

/-- Witness for C6 on the empty filesystem. -/
theorem c6_missing_source_witness :
    (⟨none, none⟩ : FS).orig = none ∧
    (run ⟨none, none⟩ = Except.error ⟨none, none⟩ ∧
      ∀ m, ¬ Step ⟨⟨none, none⟩, none, PC.start⟩ m) :=
  ⟨rfl, c6_missing_source ⟨none, none⟩ rfl⟩

/-- C7: a successful run leaves nothing at the temporary path, whatever the
filesystem held there before the run. -/
theorem c7_no_temp_after_success (fs fs' : FS) (n : Nat)
    (h : run fs = Except.ok (fs', n)) : fs'.tmp = none := by
  unfold run at h
  cases hor : fs.orig with
  | none =>
    rw [hor] at h
    exact Except.noConfusion h
  | some c =>
    rw [hor] at h
    injection h with h
    injection h with h1 h2
    rw [← h1]

/-- Witness for C7: a run on a filesystem that already held a stale
temporary file. -/
theorem c7_no_temp_after_success_witness :
    run ⟨some lineA, some ['z']⟩
      = Except.ok (⟨some (output lineA), none⟩, printedCount lineA) ∧
    (⟨some (output lineA), none⟩ : FS).tmp = none :=
  ⟨rfl, c7_no_temp_after_success ⟨some lineA, some ['z']⟩
    ⟨some (output lineA), none⟩ (printedCount lineA) rfl⟩

/-- C8: on a source with at least 3789 lines, all newline-terminated, the
operation is idempotent: running it on its own output returns the same
content, because the second run's retained prefix ends before the
previously appended closing lines. -/
theorem c8_idempotent_when_terminated (c : List Char)
    (h1 : 3789 ≤ (readlines c).length)
    (h2 : ∀ l ∈ readlines c, Terminated l) :
    output (output c) = output c := by
  have hterm : ∀ l ∈ (readlines c).take retainCount, Terminated l :=
    fun l hl => h2 l (List.take_subset _ _ hl)
  have hro := readlines_output c hterm
  have hlen : ((readlines c).take retainCount).length = retainCount := by
    rw [List.length_take]
    exact Nat.min_eq_left h1
  rw [output_eq (output c), hro]
  have htake : (((readlines c).take retainCount)
      ++ [['\n'], closingTail]).take retainCount
      = (readlines c).take retainCount := by
    have := List.take_left ((readlines c).take retainCount)
      [['\n'], closingTail]
    rw [hlen] at this
    exact this
  rw [htake, ← output_eq c]

/-- Witness for C8: exactly 3789 copies of the terminated line `"a\n"`. -/
theorem c8_idempotent_when_terminated_witness :
    3789 ≤ (readlines (bigInput 3789)).length ∧
    (∀ l ∈ readlines (bigInput 3789), Terminated l) ∧
    output (output (bigInput 3789)) = output (bigInput 3789) := by
  have hA : 3789 ≤ (readlines (bigInput 3789)).length := by
    rw [readlines_bigInput, List.length_replicate]
  have hB : ∀ l ∈ readlines (bigInput 3789), Terminated l := by
    rw [readlines_bigInput]
    intro l hl
    rw [(List.mem_replicate.mp hl).2]
    decide
  exact ⟨hA, hB, c8_idempotent_when_terminated (bigInput 3789) hA hB⟩

/-- C9: every successful run writes a file that ends in the closing
snippet `"\n}() );\n"` and has at most 3791 lines, whatever the input was
(including the empty file). -/
theorem c9_output_invariant (c : List Char) :
    closing.IsSuffix (output c) ∧ (readlines (output c)).length ≤ 3791 := by
  constructor
  · rw [output_eq]
    exact List.suffix_append _ _
  · show (splitLines (translate (output c))).length ≤ 3791
    rw [translate_output, output_eq]
    calc (splitLines (((readlines c).take retainCount).flatten
            ++ closing)).length
        ≤ (splitLines ((readlines c).take retainCount).flatten).length
            + (splitLines closing).length := length_splitLines_append _ _
      _ ≤ ((readlines c).take retainCount).length + 2 := by
          rw [splitLines_closing]
          have := length_splitLines_flatten_le ((readlines c).take retainCount)
            (fun l hl => properLine_of_mem_splitLines (List.take_subset _ _ hl))
          simp only [List.length_cons, List.length_nil]
          omega
      _ ≤ 3791 := by
          rw [List.length_take]
          have h1 : min retainCount (readlines c).length ≤ retainCount :=
            Nat.min_le_left _ _
          have h2 : retainCount = 3789 := rfl
          omega

/-- C10: the printed count is always `min(L, 3789) + 1` for a source with
`L` lines, because the two closing lines are appended as one sequence
element; for the empty source the script prints 1 while the written file
has 2 lines. -/
theorem c10_printed_count_min :
    (∀ c : List Char,
        printedCount c = min (readlines c).length 3789 + 1) ∧
    printedCount [] = 1 ∧
    (readlines (output [])).length = 2 := by
  refine ⟨fun c => ?_, by decide, by decide⟩
  rw [printedCount_eq]
  rfl

end Truncate
